import Mathlib

/-!
Verification development for the arithmetic repository.

The development shallowly embeds two parts of the code base:

* `src/src/file.cpp` — the binary serializer (`Writer`), deserializer
  (`Reader`), and the `File` commit/read logic.  These are translated
  directly from the C++ source.
* the polymult engine declared in `src/src/gwnum/polymult.h` — the
  implementation file is not part of the repository, so the operational
  definitions for it are modelled from the specification (each such
  definition carries a doc comment starting with `Modelled from the spec:`).

Bytes are modelled as natural numbers (a stored byte is always `< 256`
when produced by the writer).  The C++ `int` fields `_pos`/`_size` of
`Reader` are modelled as `Int` so that the source's signed comparisons and
signed position arithmetic are preserved exactly.
-/

namespace Arith

/-! ## Byte-level primitives shared by Writer and Reader -/

/-- Little-endian byte encoding of `n` into exactly `w` bytes
(each byte is `n / 256^i % 256`), exactly what `memcpy` of a `w`-byte
little-endian integer produces. -/
def toBytes : Nat → Nat → List Nat
  | 0, _ => []
  | w + 1, n => n % 256 :: toBytes w (n / 256)

/-- Little-endian byte decoding, inverse of `toBytes` below `256 ^ w`. -/
def fromBytes : List Nat → Nat
  | [] => 0
  | b :: bs => b + 256 * fromBytes bs

theorem length_toBytes (w n : Nat) : (toBytes w n).length = w := by
  induction w generalizing n with
  | zero => rfl
  | succ w ih => simp [toBytes, ih]

theorem fromBytes_toBytes (w n : Nat) : fromBytes (toBytes w n) = n % 256 ^ w := by
  induction w generalizing n with
  | zero => simp [toBytes, fromBytes, Nat.mod_one]
  | succ w ih =>
      simp only [toBytes, fromBytes, ih]
      rw [pow_succ, mul_comm (256 ^ w) 256]
      conv_rhs => rw [← Nat.div_add_mod (n % (256 * 256 ^ w)) 256]
      rw [Nat.mod_mul_right_div_self, Nat.mod_mod_of_dvd _ ⟨256 ^ w, rfl⟩]
      omega

theorem fromBytes_toBytes_of_lt {w n : Nat} (h : n < 256 ^ w) :
    fromBytes (toBytes w n) = n := by
  rw [fromBytes_toBytes, Nat.mod_eq_of_lt h]

/-- The byte stored at (signed) offset `i` of a buffer; out-of-range
access returns an unspecified value, fixed here as `0`. -/
def byteAt (data : List Nat) (i : Int) : Nat :=
  if h : 0 ≤ i ∧ i.toNat < data.length then data.get ⟨i.toNat, h.2⟩ else 0

/-- The `w` raw bytes starting at signed offset `pos` (what a `memcpy`
out of `_data + _pos` reads). -/
def readRaw (data : List Nat) (pos : Int) (w : Nat) : List Nat :=
  (List.range w).map (fun k : Nat => byteAt data (pos + (k : Int)))

theorem byteAt_append_right (pre l : List Nat) (k : Nat) (hk : k < l.length) :
    byteAt (pre ++ l) ((pre.length : Int) + k) = l.get ⟨k, hk⟩ := by
  unfold byteAt
  have h0 : (0 : Int) ≤ (pre.length : Int) + k := by positivity
  have htn : ((pre.length : Int) + k).toNat = pre.length + k := by omega
  have hlen : pre.length + k < (pre ++ l).length := by
    simp [List.length_append]; omega
  rw [dif_pos ⟨h0, by rw [htn]; exact hlen⟩]
  simp only [List.get_eq_getElem]
  have : (pre ++ l)[((pre.length : Int) + k).toNat] = (pre ++ l)[pre.length + k] := by
    congr 1
  rw [this, List.getElem_append_right (by omega)]
  congr 1
  omega

theorem readRaw_zero (data : List Nat) (pos : Int) : readRaw data pos 0 = [] := rfl

theorem readRaw_succ (data : List Nat) (pos : Int) (w : Nat) :
    readRaw data pos (w + 1) = byteAt data pos :: readRaw data (pos + 1) w := by
  unfold readRaw
  rw [List.range_succ_eq_map, List.map_cons, List.map_map]
  congr 1
  · simp
  · apply List.map_congr_left
    intro k _
    simp only [Function.comp_apply]
    congr 1
    push_cast
    ring

theorem readRaw_length (data : List Nat) (pos : Int) (w : Nat) :
    (readRaw data pos w).length = w := by
  simp [readRaw]

theorem readRaw_exact (pre mid rest : List Nat) :
    readRaw (pre ++ mid ++ rest) (pre.length : Int) mid.length = mid := by
  induction mid generalizing pre with
  | nil => exact readRaw_zero _ _
  | cons m ms ih =>
      rw [List.length_cons, readRaw_succ]
      have hhead : byteAt (pre ++ (m :: ms) ++ rest) (pre.length : Int) = m := by
        have h0 : (0 : Nat) < ((m :: ms) ++ rest).length := by simp
        have := byteAt_append_right pre ((m :: ms) ++ rest) 0 h0
        simpa [List.append_assoc] using this
      have htail : readRaw (pre ++ (m :: ms) ++ rest) ((pre.length : Int) + 1) ms.length = ms := by
        have := ih (pre ++ [m])
        simpa [List.append_assoc, List.length_append] using this
      rw [hhead, htail]

/-! ## Reader (`src/src/file.cpp` lines 72–134)

Each overload of `Reader::read` is translated as a function from the
buffer and the current `_pos` to `Option (value × new _pos)`; `none` is
the `return false` path.  The guards are copied verbatim from the source:
note that `read(double&)` tests `_size < _pos + 4` although it then
dereferences `*(double*)(_data + _pos)` — eight bytes — and advances
`_pos` by `sizeof(double)`. -/

/-- Interpret a 4-byte little-endian pattern as a two's-complement
`int32_t` value. -/
def decodeInt32 (n : Nat) : Int :=
  if n < 2 ^ 31 then (n : Int) else (n : Int) - 2 ^ 32

/-- `Reader::read(uint32_t&)`: requires 4 bytes, reads 4, advances 4. -/
def readU32 (data : List Nat) (pos : Int) : Option (Nat × Int) :=
  if (data.length : Int) < pos + 4 then none
  else some (fromBytes (readRaw data pos 4), pos + 4)

/-- `Reader::read(int32_t&)`: requires 4 bytes, reads 4, advances 4. -/
def readI32 (data : List Nat) (pos : Int) : Option (Int × Int) :=
  if (data.length : Int) < pos + 4 then none
  else some (decodeInt32 (fromBytes (readRaw data pos 4)), pos + 4)

/-- `Reader::read(uint64_t&)`: requires 8 bytes, reads 8, advances 8. -/
def readU64 (data : List Nat) (pos : Int) : Option (Nat × Int) :=
  if (data.length : Int) < pos + 8 then none
  else some (fromBytes (readRaw data pos 8), pos + 8)

/-- `Reader::read(double&)` as written in the source: the guard tests
only `_size < _pos + 4`, but the read dereferences eight bytes and the
position advances by `sizeof(double) = 8`. -/
def readDouble (data : List Nat) (pos : Int) : Option (Nat × Int) :=
  if (data.length : Int) < pos + 4 then none
  else some (fromBytes (readRaw data pos 8), pos + 8)

/-- `Reader::read(std::string&)`: reads a signed 4-byte length, then
tests `_size < _pos + len` (with `len` signed!), then copies `len` bytes.
A negative `len` passes the second guard; the copy
`value.insert(value.end(), _data+_pos, _data+_pos+len)` is then undefined
behaviour in the source, modelled here as an empty copy, and `_pos`
moves backwards. -/
def readString (data : List Nat) (pos : Int) : Option (List Nat × Int) :=
  if (data.length : Int) < pos + 4 then none
  else
    let len : Int := decodeInt32 (fromBytes (readRaw data pos 4))
    if (data.length : Int) < pos + 4 + len then none
    else some (readRaw data (pos + 4) len.toNat, pos + 4 + len)

/-- The `n` consecutive 4-byte little-endian words starting at `pos`
(what `Giant::init` consumes from `(uint32_t*)(_data + _pos)`). -/
def readWords (data : List Nat) (pos : Int) (n : Nat) : List Nat :=
  (List.range n).map (fun k : Nat => fromBytes (readRaw data (pos + 4 * (k : Int)) 4))

/-- `Reader::read(arithmetic::Giant&)`: reads a signed 4-byte length
whose sign carries the sign of the number, tests
`_size < _pos + abs(len)*4`, loads `abs(len)` 32-bit magnitude words,
negates when `len < 0`, advances by `abs(len)*4`.  The value is the pair
(negative?, magnitude words). -/
def readGiant (data : List Nat) (pos : Int) : Option ((Bool × List Nat) × Int) :=
  if (data.length : Int) < pos + 4 then none
  else
    let len : Int := decodeInt32 (fromBytes (readRaw data pos 4))
    if (data.length : Int) < pos + 4 + |len| * 4 then none
    else some ((decide (len < 0), readWords data (pos + 4) len.natAbs), pos + 4 + |len| * 4)

/-! ## Writer (`src/src/file.cpp` lines 14–53)

Each overload of `Writer::write` appends raw bytes to `_buffer`; the
translation gives the byte list appended by one call.  A C++ `double` is
written and read as its raw 8-byte pattern, so it is modelled by the
64-bit pattern itself — no floating-point arithmetic is involved in the
serializer. -/

/-- The 4 bytes `memcpy` produces from an `int32_t` (two's complement,
little-endian). -/
def encode32 (v : Int) : List Nat := toBytes 4 (v % 2 ^ 32).toNat

/-- `Writer::write(int32_t)`. -/
def writeI32 (v : Int) : List Nat := encode32 v

/-- `Writer::write(uint32_t)`. -/
def writeU32 (v : Nat) : List Nat := toBytes 4 v

/-- `Writer::write(uint64_t)`. -/
def writeU64 (v : Nat) : List Nat := toBytes 8 v

/-- `Writer::write(double)`: the raw 8-byte pattern of the double. -/
def writeDouble (bits : Nat) : List Nat := toBytes 8 bits

/-- `Writer::write(const std::string&)`: 4-byte length then the bytes. -/
def writeString (s : List Nat) : List Nat := encode32 (s.length : Int) ++ s

/-- `Writer::write(const arithmetic::Giant&)`: the length word is
`value.size()` negated when the value is negative, followed by the
magnitude as `size()` 32-bit words. -/
def writeGiant (negv : Bool) (words : List Nat) : List Nat :=
  encode32 (if negv then -(words.length : Int) else (words.length : Int)) ++
    words.flatMap (toBytes 4)

/-! ## Round-trip infrastructure for claim C9 -/

/-- One serializable value: the six `Writer::write` / `Reader::read`
overload pairs.  A `Giant` is its sign and magnitude words; a double is
its raw 64-bit pattern. -/
inductive Value where
  | i32 (v : Int)
  | u32 (v : Nat)
  | u64 (v : Nat)
  | dbl (bits : Nat)
  | str (s : List Nat)
  | giant (negv : Bool) (words : List Nat)
deriving DecidableEq

/-- Representability of a value in the wire format: integers fit their
width, a string length fits the signed 32-bit length prefix, giant words
are 32-bit and a negative giant has at least one word (a zero-length
giant would serialize with length word `0`, losing the sign). -/
def wfValue : Value → Prop
  | .i32 v => -(2 ^ 31) ≤ v ∧ v < 2 ^ 31
  | .u32 v => v < 2 ^ 32
  | .u64 v => v < 2 ^ 64
  | .dbl bits => bits < 2 ^ 64
  | .str s => s.length < 2 ^ 31
  | .giant negv words =>
      words.length < 2 ^ 31 ∧ (∀ w ∈ words, w < 2 ^ 32) ∧ (negv = true → words ≠ [])

instance : DecidablePred wfValue := by
  intro v
  cases v <;> simp only [wfValue] <;> infer_instance

/-- The bytes one `Writer::write` call appends. -/
def writeValue : Value → List Nat
  | .i32 v => writeI32 v
  | .u32 v => writeU32 v
  | .u64 v => writeU64 v
  | .dbl bits => writeDouble bits
  | .str s => writeString s
  | .giant negv words => writeGiant negv words

/-- The buffer produced by a sequence of `Writer::write` calls. -/
def writeAll (vs : List Value) : List Nat := vs.flatMap writeValue

/-- Run the matching `Reader::read` overload for each value in turn,
checking that every read returns `true`, yields exactly the written
value, and that afterwards the whole buffer has been consumed. -/
def checkReads : List Value → List Nat → Int → Bool
  | [], data, pos => pos == (data.length : Int)
  | .i32 v :: vs, data, pos =>
      match readI32 data pos with
      | some (w, p) => w == v && checkReads vs data p
      | none => false
  | .u32 v :: vs, data, pos =>
      match readU32 data pos with
      | some (w, p) => w == v && checkReads vs data p
      | none => false
  | .u64 v :: vs, data, pos =>
      match readU64 data pos with
      | some (w, p) => w == v && checkReads vs data p
      | none => false
  | .dbl bits :: vs, data, pos =>
      match readDouble data pos with
      | some (w, p) => w == bits && checkReads vs data p
      | none => false
  | .str s :: vs, data, pos =>
      match readString data pos with
      | some (w, p) => w == s && checkReads vs data p
      | none => false
  | .giant negv words :: vs, data, pos =>
      match readGiant data pos with
      | some ((n, w), p) => n == negv && w == words && checkReads vs data p
      | none => false

theorem decode_encode32 {v : Int} (h1 : -(2 ^ 31) ≤ v) (h2 : v < 2 ^ 31) :
    decodeInt32 (fromBytes (encode32 v)) = v := by
  unfold encode32 decodeInt32
  rw [fromBytes_toBytes]
  have h3 : 0 ≤ v % 2 ^ 32 := Int.emod_nonneg v (by norm_num)
  have h4 : v % 2 ^ 32 < 2 ^ 32 := Int.emod_lt_of_pos v (by norm_num)
  norm_num
  split <;> omega

theorem length_encode32 (v : Int) : (encode32 v).length = 4 := length_toBytes 4 _

theorem readRaw_exact_len (pre mid rest : List Nat) (w : Nat) (hw : mid.length = w) :
    readRaw (pre ++ mid ++ rest) (pre.length : Int) w = mid := by
  subst hw; exact readRaw_exact pre mid rest

theorem readU32_append (pre rest : List Nat) (v : Nat) (hv : v < 2 ^ 32) :
    readU32 (pre ++ writeU32 v ++ rest) (pre.length : Int) =
      some (v, (pre.length : Int) + 4) := by
  unfold readU32 writeU32
  have hlen : (pre ++ toBytes 4 v ++ rest).length = pre.length + 4 + rest.length := by
    simp [List.length_append, length_toBytes]; omega
  rw [if_neg (by rw [hlen]; push_cast; omega)]
  rw [readRaw_exact_len pre _ rest 4 (length_toBytes 4 v),
    fromBytes_toBytes_of_lt (by norm_num at hv ⊢; omega)]

theorem readI32_append (pre rest : List Nat) (v : Int)
    (h1 : -(2 ^ 31) ≤ v) (h2 : v < 2 ^ 31) :
    readI32 (pre ++ writeI32 v ++ rest) (pre.length : Int) =
      some (v, (pre.length : Int) + 4) := by
  unfold readI32 writeI32
  have hlen : (pre ++ encode32 v ++ rest).length = pre.length + 4 + rest.length := by
    simp [List.length_append, length_encode32]; omega
  rw [if_neg (by rw [hlen]; push_cast; omega)]
  rw [readRaw_exact_len pre _ rest 4 (length_encode32 v), decode_encode32 h1 h2]

theorem readU64_append (pre rest : List Nat) (v : Nat) (hv : v < 2 ^ 64) :
    readU64 (pre ++ writeU64 v ++ rest) (pre.length : Int) =
      some (v, (pre.length : Int) + 8) := by
  unfold readU64 writeU64
  have hlen : (pre ++ toBytes 8 v ++ rest).length = pre.length + 8 + rest.length := by
    simp [List.length_append, length_toBytes]; omega
  rw [if_neg (by rw [hlen]; push_cast; omega)]
  rw [readRaw_exact_len pre _ rest 8 (length_toBytes 8 v),
    fromBytes_toBytes_of_lt (by norm_num at hv ⊢; omega)]

theorem readDouble_append (pre rest : List Nat) (bits : Nat) (hv : bits < 2 ^ 64) :
    readDouble (pre ++ writeDouble bits ++ rest) (pre.length : Int) =
      some (bits, (pre.length : Int) + 8) := by
  unfold readDouble writeDouble
  have hlen : (pre ++ toBytes 8 bits ++ rest).length = pre.length + 8 + rest.length := by
    simp [List.length_append, length_toBytes]; omega
  rw [if_neg (by rw [hlen]; push_cast; omega)]
  rw [readRaw_exact_len pre _ rest 8 (length_toBytes 8 bits),
    fromBytes_toBytes_of_lt (by norm_num at hv ⊢; omega)]

theorem readString_append (pre rest : List Nat) (s : List Nat) (hs : s.length < 2 ^ 31) :
    readString (pre ++ writeString s ++ rest) (pre.length : Int) =
      some (s, (pre.length : Int) + 4 + s.length) := by
  unfold readString writeString
  have hassoc : pre ++ (encode32 (s.length : Int) ++ s) ++ rest =
      pre ++ encode32 (s.length : Int) ++ (s ++ rest) := by
    simp [List.append_assoc]
  rw [hassoc]
  have hlen : (pre ++ encode32 (s.length : Int) ++ (s ++ rest)).length =
      pre.length + 4 + s.length + rest.length := by
    simp [List.length_append, length_encode32]
    omega
  have hdec : decodeInt32 (fromBytes (readRaw
      (pre ++ encode32 (s.length : Int) ++ (s ++ rest)) (pre.length : Int) 4)) =
      (s.length : Int) := by
    rw [readRaw_exact_len pre _ (s ++ rest) 4 (length_encode32 _)]
    exact decode_encode32 (by omega) (by exact_mod_cast hs)
  rw [if_neg (by rw [hlen]; push_cast; omega)]
  simp only [hdec]
  rw [if_neg (by rw [hlen]; push_cast; omega)]
  have hbytes : readRaw (pre ++ encode32 (s.length : Int) ++ (s ++ rest))
      ((pre.length : Int) + 4) (s.length : Int).toNat = s := by
    have hre : pre ++ encode32 (s.length : Int) ++ (s ++ rest) =
        (pre ++ encode32 (s.length : Int)) ++ s ++ rest := by
      simp [List.append_assoc]
    have hpl : ((pre ++ encode32 (s.length : Int)).length : Int) = (pre.length : Int) + 4 := by
      simp [List.length_append, length_encode32]
    have := readRaw_exact (pre ++ encode32 (s.length : Int)) s rest
    rw [hpl] at this
    rw [hre, Int.toNat_natCast]
    exact this
  rw [hbytes]

theorem length_flat_words (ws : List Nat) : (ws.flatMap (toBytes 4)).length = 4 * ws.length := by
  induction ws with
  | nil => rfl
  | cons w ws ih =>
      simp only [List.flatMap_cons, List.length_append, length_toBytes, ih, List.length_cons]
      ring

theorem readWords_succ (data : List Nat) (pos : Int) (n : Nat) :
    readWords data pos (n + 1) =
      fromBytes (readRaw data pos 4) :: readWords data (pos + 4) n := by
  unfold readWords
  rw [List.range_succ_eq_map, List.map_cons, List.map_map]
  congr 1
  · simp
  · apply List.map_congr_left
    intro k _
    simp only [Function.comp_apply]
    congr 2
    push_cast
    ring

theorem readWords_exact (pre rest ws : List Nat) (hw : ∀ w ∈ ws, w < 2 ^ 32) :
    readWords (pre ++ ws.flatMap (toBytes 4) ++ rest) (pre.length : Int) ws.length = ws := by
  induction ws generalizing pre with
  | nil => rfl
  | cons w ws ih =>
      rw [List.length_cons, readWords_succ]
      have hflat : (w :: ws).flatMap (toBytes 4) = toBytes 4 w ++ ws.flatMap (toBytes 4) :=
        List.flatMap_cons ..
      have hre : pre ++ (w :: ws).flatMap (toBytes 4) ++ rest =
          pre ++ toBytes 4 w ++ (ws.flatMap (toBytes 4) ++ rest) := by
        rw [hflat]; simp [List.append_assoc]
      have hhead : fromBytes (readRaw (pre ++ (w :: ws).flatMap (toBytes 4) ++ rest)
          (pre.length : Int) 4) = w := by
        rw [hre, readRaw_exact_len pre _ _ 4 (length_toBytes 4 w)]
        exact fromBytes_toBytes_of_lt (by have := hw w (by simp); norm_num at this ⊢; omega)
      have htail : readWords (pre ++ (w :: ws).flatMap (toBytes 4) ++ rest)
          ((pre.length : Int) + 4) ws.length = ws := by
        have hpl : (((pre ++ toBytes 4 w).length : Nat) : Int) = (pre.length : Int) + 4 := by
          simp [List.length_append, length_toBytes]
        have hre2 : pre ++ (w :: ws).flatMap (toBytes 4) ++ rest =
            (pre ++ toBytes 4 w) ++ ws.flatMap (toBytes 4) ++ rest := by
          rw [hflat]; simp [List.append_assoc]
        have := ih (pre ++ toBytes 4 w) (fun x hx => hw x (by simp [hx]))
        rw [hpl] at this
        rw [hre2]
        exact this
      rw [hhead, htail]

theorem readGiant_append (pre rest : List Nat) (negv : Bool) (ws : List Nat)
    (h1 : ws.length < 2 ^ 31) (h2 : ∀ w ∈ ws, w < 2 ^ 32) (h3 : negv = true → ws ≠ []) :
    readGiant (pre ++ writeGiant negv ws ++ rest) (pre.length : Int) =
      some ((negv, ws), (pre.length : Int) + 4 + (ws.length : Int) * 4) := by
  unfold readGiant writeGiant
  set L : Int := if negv then -(ws.length : Int) else (ws.length : Int) with hLdef
  have hL1 : -(2 ^ 31) ≤ L := by rw [hLdef]; split <;> omega
  have hL2 : L < 2 ^ 31 := by rw [hLdef]; split <;> omega
  have hnatAbsL : L.natAbs = ws.length := by
    rw [hLdef]; split <;> simp
  have habsL : |L| = (ws.length : Int) := by
    rw [Int.abs_eq_natAbs, hnatAbsL]
  have hsignL : decide (L < 0) = negv := by
    rw [hLdef]
    cases negv with
    | false => simp
    | true =>
        have hpos : 0 < ws.length := List.length_pos.mpr (h3 rfl)
        simp only [if_true, decide_eq_true_eq]
        omega
  have hre : pre ++ (encode32 L ++ ws.flatMap (toBytes 4)) ++ rest =
      pre ++ encode32 L ++ (ws.flatMap (toBytes 4) ++ rest) := by
    simp [List.append_assoc]
  rw [hre]
  have hlen : (pre ++ encode32 L ++ (ws.flatMap (toBytes 4) ++ rest)).length =
      pre.length + 4 + (4 * ws.length + rest.length) := by
    rw [List.length_append, List.length_append, List.length_append, length_encode32,
      length_flat_words]
  have hdec : decodeInt32 (fromBytes (readRaw
      (pre ++ encode32 L ++ (ws.flatMap (toBytes 4) ++ rest)) (pre.length : Int) 4)) = L := by
    rw [readRaw_exact_len pre _ _ 4 (length_encode32 L)]
    exact decode_encode32 hL1 hL2
  rw [if_neg (by rw [hlen]; push_cast; omega)]
  simp only [hdec]
  rw [if_neg (by rw [hlen, habsL]; push_cast; omega)]
  have hwords : readWords (pre ++ encode32 L ++ (ws.flatMap (toBytes 4) ++ rest))
      ((pre.length : Int) + 4) ws.length = ws := by
    have hre2 : pre ++ encode32 L ++ (ws.flatMap (toBytes 4) ++ rest) =
        (pre ++ encode32 L) ++ ws.flatMap (toBytes 4) ++ rest := by
      simp [List.append_assoc]
    have hpl : (((pre ++ encode32 L).length : Nat) : Int) = (pre.length : Int) + 4 := by
      simp [List.length_append, length_encode32]
    have := readWords_exact (pre ++ encode32 L) rest ws h2
    rw [hpl] at this
    rw [hre2]
    exact this
  rw [hnatAbsL, hwords, hsignL, habsL]

theorem checkReads_writeAll (vs : List Value) :
    ∀ pre : List Nat, (∀ v ∈ vs, wfValue v) →
      checkReads vs (pre ++ writeAll vs) (pre.length : Int) = true := by
  induction vs with
  | nil =>
      intro pre _
      simp [checkReads, writeAll]
  | cons v vs ih =>
      intro pre hwf
      have hwfv : wfValue v := hwf v (by simp)
      have hwfs : ∀ x ∈ vs, wfValue x := fun x hx => hwf x (by simp [hx])
      have hsplit : pre ++ writeAll (v :: vs) = pre ++ writeValue v ++ writeAll vs := by
        simp [writeAll, List.flatMap_cons, List.append_assoc]
      rw [hsplit]
      cases v with
      | i32 n =>
          obtain ⟨hb1, hb2⟩ := hwfv
          simp only [writeValue, checkReads,
            readI32_append pre (writeAll vs) n hb1 hb2,
            beq_self_eq_true, Bool.true_and]
          have hpl : (((pre ++ writeI32 n).length : Nat) : Int) = (pre.length : Int) + 4 := by
            rw [List.length_append, writeI32, length_encode32]
            push_cast
            ring
          rw [← hpl]
          exact ih (pre ++ writeI32 n) hwfs
      | u32 n =>
          simp only [writeValue, checkReads,
            readU32_append pre (writeAll vs) n hwfv,
            beq_self_eq_true, Bool.true_and]
          have hpl : (((pre ++ writeU32 n).length : Nat) : Int) = (pre.length : Int) + 4 := by
            rw [List.length_append, writeU32, length_toBytes]
            push_cast
            ring
          rw [← hpl]
          exact ih (pre ++ writeU32 n) hwfs
      | u64 n =>
          simp only [writeValue, checkReads,
            readU64_append pre (writeAll vs) n hwfv,
            beq_self_eq_true, Bool.true_and]
          have hpl : (((pre ++ writeU64 n).length : Nat) : Int) = (pre.length : Int) + 8 := by
            rw [List.length_append, writeU64, length_toBytes]
            push_cast
            ring
          rw [← hpl]
          exact ih (pre ++ writeU64 n) hwfs
      | dbl bits =>
          simp only [writeValue, checkReads,
            readDouble_append pre (writeAll vs) bits hwfv,
            beq_self_eq_true, Bool.true_and]
          have hpl : (((pre ++ writeDouble bits).length : Nat) : Int) = (pre.length : Int) + 8 := by
            rw [List.length_append, writeDouble, length_toBytes]
            push_cast
            ring
          rw [← hpl]
          exact ih (pre ++ writeDouble bits) hwfs
      | str s =>
          simp only [writeValue, checkReads,
            readString_append pre (writeAll vs) s hwfv,
            beq_self_eq_true, Bool.true_and]
          have hpl : (((pre ++ writeString s).length : Nat) : Int) =
              (pre.length : Int) + 4 + s.length := by
            rw [List.length_append, writeString, List.length_append, length_encode32]
            push_cast
            ring
          rw [← hpl]
          exact ih (pre ++ writeString s) hwfs
      | giant negv ws =>
          obtain ⟨hb1, hb2, hb3⟩ := hwfv
          simp only [writeValue, checkReads,
            readGiant_append pre (writeAll vs) negv ws hb1 hb2 hb3,
            beq_self_eq_true, Bool.true_and, Bool.and_self]
          have hpl : (((pre ++ writeGiant negv ws).length : Nat) : Int) =
              (pre.length : Int) + 4 + (ws.length : Int) * 4 := by
            rw [List.length_append, writeGiant, List.length_append, length_encode32,
              length_flat_words]
            push_cast
            ring
          rw [← hpl]
          exact ih (pre ++ writeGiant negv ws) hwfs

/-- C9: serialization round-trips.  For every sequence of representable
values written by `Writer::write` — `int32_t`, `uint32_t`, `uint64_t`,
`double`, `std::string`, and `Giant` including negative Giants via the
sign-carrying length word — a `Reader` constructed over the resulting
buffer returns true for each read of the matching type in write order,
yields exactly the values written, and finishes having consumed the whole
buffer. -/
theorem C9_writer_reader_roundtrip (vs : List Value) (hwf : ∀ v ∈ vs, wfValue v) :
    checkReads vs (writeAll vs) 0 = true := by
  have h := checkReads_writeAll vs [] hwf
  simpa using h

/-- Witness for C9: a concrete write sequence containing every overload,
including a negative `Giant`, read back successfully. -/
theorem C9_writer_reader_roundtrip_witness :
    checkReads
      [Value.i32 (-5), Value.u32 7, Value.u64 4294967299,
       Value.dbl 1311768467463790320, Value.str [104, 105, 0, 255],
       Value.giant true [3, 4294967295], Value.giant false []]
      (writeAll
        [Value.i32 (-5), Value.u32 7, Value.u64 4294967299,
         Value.dbl 1311768467463790320, Value.str [104, 105, 0, 255],
         Value.giant true [3, 4294967295], Value.giant false []]) 0 = true :=
  C9_writer_reader_roundtrip
    [Value.i32 (-5), Value.u32 7, Value.u64 4294967299,
     Value.dbl 1311768467463790320, Value.str [104, 105, 0, 255],
     Value.giant true [3, 4294967295], Value.giant false []]
    (by decide)

/-- C8 (code bug): `Reader::read(double&)` guards only `_size < _pos + 4`
yet dereferences eight bytes and advances `_pos` by `sizeof(double)`.
On a four-byte buffer with `_pos = 0` the read succeeds — returning a
value assembled from four bytes past `_size` — although fewer than
`sizeof(double)` bytes remain, contradicting the claim that every
`Reader::read` overload touches only offsets inside `[0, _size)` and
fails otherwise. -/
theorem C8_readDouble_out_of_bounds :
    (readDouble [1, 2, 3, 4] 0).isSome = true ∧
    (([1, 2, 3, 4] : List Nat).length : Int) < 0 + 8 := by
  decide

/-! ## File commit (`src/src/file.cpp` lines 192–233)

`commit_writer` manipulates the file system through `writeThrough`,
`remove` and `rename`.  The file system is a map from names (character
lists, the `std::string`s that `File` builds by concatenation) to file
contents; whether an individual `writeThrough` call succeeds is decided
by the environment, so each call's outcome is a parameter. -/

/-- An abstract file system: each name maps to the byte contents of the
file, or `none` when no such file exists. -/
def FS := List Char → Option (List Nat)

/-- `remove(name)`. -/
def FS.removeFile (fs : FS) (name : List Char) : FS :=
  fun n => if n = name then none else fs n

/-- Create or overwrite a file. -/
def FS.put (fs : FS) (name : List Char) (c : List Nat) : FS :=
  fun n => if n = name then some c else fs n

/-- `rename(a, b)`: the contents of `a` move to `b` and `a` disappears. -/
def FS.renameFile (fs : FS) (a b : List Char) : FS :=
  fun n => if n = b then fs a else if n = a then none else fs n

/-- Outcome of one `writeThrough` call: `fopen`/`CreateFile` can fail with
no file created, the write itself can come up short leaving a partial
file behind (the function still returns `false` after closing it), or
everything succeeds. -/
inductive WTResult where
  | openFailed
  | shortWrite (written : List Nat)
  | ok
deriving DecidableEq

/-- The boolean `writeThrough` returns (`src/src/file.cpp` lines 192–212). -/
def wtOk : WTResult → Bool
  | .ok => true
  | _ => false

/-- Effect of `writeThrough(filename, buffer, count)` on the file system. -/
def writeThrough (fs : FS) (name : List Char) (content : List Nat) : WTResult → FS
  | .openFailed => fs
  | .shortWrite w => fs.put name w
  | .ok => fs.put name content

/-- `File::commit_writer` (`src/src/file.cpp` lines 214–233): write the
buffer write-through to `_filename + ".new"`; if that fails remove the
temporary and return.  Otherwise remove `_filename`, rename the temporary
over it, and — when hashing is enabled — write the hash string to
`_filename + ".md5"` (that second `writeThrough`'s result is ignored).
`md5str` abstracts `writer.hash_str()`; `r1`, `r2` are the outcomes of
the two `writeThrough` calls. -/
def commit_writer (fs : FS) (fname : List Char) (content md5str : List Nat)
    (hashEnabled : Bool) (r1 r2 : WTResult) : FS :=
  let newname := fname ++ ['.', 'n', 'e', 'w']
  let fs1 := writeThrough fs newname content r1
  if wtOk r1 = false then fs1.removeFile newname
  else
    let fs2 := (fs1.removeFile fname).renameFile newname fname
    if hashEnabled then writeThrough fs2 (fname ++ ['.', 'm', 'd', '5']) md5str r2 else fs2

theorem ne_append_nonempty (l s : List Char) (hs : s ≠ []) : l ≠ l ++ s := by
  intro h
  have hlen := congrArg List.length h
  rw [List.length_append] at hlen
  have : s.length = 0 := by omega
  exact hs (List.length_eq_zero.mp this)

/-- C4: partial results are never written on failure.  If the
write-through of the temporary `".new"` file fails, `commit_writer`
removes the temporary and returns: the previously committed file at
`_filename` and its `".md5"` companion are untouched, and no `".new"`
file remains. -/
theorem C4_commit_writer_failure_preserves (fs : FS) (fname : List Char)
    (content md5str : List Nat) (hashEnabled : Bool) (r1 r2 : WTResult)
    (hfail : wtOk r1 = false) :
    commit_writer fs fname content md5str hashEnabled r1 r2 fname = fs fname ∧
    commit_writer fs fname content md5str hashEnabled r1 r2 (fname ++ ['.', 'm', 'd', '5']) =
      fs (fname ++ ['.', 'm', 'd', '5']) ∧
    commit_writer fs fname content md5str hashEnabled r1 r2 (fname ++ ['.', 'n', 'e', 'w']) =
      none := by
  have hnew : fname ≠ fname ++ ['.', 'n', 'e', 'w'] :=
    ne_append_nonempty fname ['.', 'n', 'e', 'w'] (by simp)
  have hmd5new : fname ++ ['.', 'm', 'd', '5'] ≠ fname ++ ['.', 'n', 'e', 'w'] := by
    intro h
    have := List.append_cancel_left h
    simp at this
  cases r1 with
  | ok => simp [wtOk] at hfail
  | openFailed =>
      refine ⟨?_, ?_, ?_⟩ <;>
        simp [commit_writer, writeThrough, wtOk, FS.removeFile, FS.put, hnew, hmd5new]
  | shortWrite w =>
      refine ⟨?_, ?_, ?_⟩ <;>
        simp [commit_writer, writeThrough, wtOk, FS.removeFile, FS.put, hnew, hmd5new]

/-- Witness for C4: a concrete failing commit over a two-file file
system leaves the committed file and its hash file unchanged and no
temporary behind. -/
theorem C4_commit_writer_failure_preserves_witness :
    commit_writer (fun _ => some [9]) ['a'] [1] [2] true
        (WTResult.shortWrite [1]) WTResult.ok ['a'] = (fun (_ : List Char) => some [9]) ['a'] ∧
    commit_writer (fun _ => some [9]) ['a'] [1] [2] true
        (WTResult.shortWrite [1]) WTResult.ok (['a'] ++ ['.', 'm', 'd', '5']) =
      (fun (_ : List Char) => some [9]) (['a'] ++ ['.', 'm', 'd', '5']) ∧
    commit_writer (fun _ => some [9]) ['a'] [1] [2] true
        (WTResult.shortWrite [1]) WTResult.ok (['a'] ++ ['.', 'n', 'e', 'w']) = none :=
  C4_commit_writer_failure_preserves (fun _ => some [9]) ['a'] [1] [2] true
    (WTResult.shortWrite [1]) WTResult.ok rfl

/-! ## File::get_reader and File::read (`src/src/file.cpp` lines 148–254)

The environment supplies what the operating system returns: the bytes of
`_filename` (or `none` when `fopen` fails), whether `fread` came up
short, and the 32-character string read from the `".md5"` companion (or
`none` when that file does not open).  The MD5 function itself lives in
`md5.c`, outside this repository's sources, so it is an opaque parameter
`md5fn`. -/

structure ReadEnv where
  fileContents : Option (List Nat)
  shortRead : Bool
  savedHash : Option (List Nat)

/-- `File::MAGIC_NUM` (`src/file.h` line 76). -/
def MAGIC_NUM : Nat := 0x9f2b3cd4

/-- Byte `i` of the loaded `_buffer` (in-bounds at every use site, which
the `_buffer.size() < 8` guard ensures). -/
def byteAtN (l : List Nat) (i : Nat) : Nat := l.getD i 0

/-- The `Reader` object built at the end of `File::get_reader`:
`Reader(_buffer[5], _buffer[6], _buffer[7], _buffer.data(), size, 8)`. -/
structure ReaderS where
  fmtVersion : Nat
  rtype : Nat
  rversion : Nat
  data : List Nat
  pos : Int

/-- The saved-hash rejection test of `File::get_reader`: only when `hash`
is enabled, the `".md5"` file opened, and the saved string is nonempty is
it compared against the recomputed hash of the buffer. -/
def md5Mismatch (md5fn : List Nat → List Nat) (savedHash : Option (List Nat))
    (hashFlag : Bool) (buf : List Nat) : Bool :=
  hashFlag &&
    match savedHash with
    | some saved => decide (saved ≠ []) && decide (saved ≠ md5fn buf)
    | none => false

/-- `File::get_reader`: `nullptr` (here `none`) when the file is missing,
the read came up short, the saved MD5 hash mismatches, the buffer is
shorter than 8 bytes, the first 4 bytes differ from `MAGIC_NUM`, or byte
4 differs from `appid`; otherwise a `Reader` positioned at offset 8. -/
def get_reader (md5fn : List Nat → List Nat) (env : ReadEnv) (hashFlag : Bool)
    (appid : Nat) : Option ReaderS :=
  match env.fileContents with
  | none => none
  | some buf =>
      if env.shortRead then none
      else if md5Mismatch md5fn env.savedHash hashFlag buf then none
      else if buf.length < 8 then none
      else if fromBytes (buf.take 4) ≠ MAGIC_NUM then none
      else if byteAtN buf 4 ≠ appid then none
      else some ⟨byteAtN buf 5, byteAtN buf 6, byteAtN buf 7, buf, 8⟩

/-- `File::read(TaskState&)`: the first component records whether
`state.read(*reader)` was invoked; the second is the returned boolean.
`stateRead` abstracts the virtual `TaskState::read`, receiving the buffer
and the position after the fingerprint. -/
def fileRead (md5fn : List Nat → List Nat) (env : ReadEnv) (hashFlag : Bool)
    (appid : Nat) (fingerprint stateType : Nat)
    (stateRead : List Nat → Int → Bool) : Bool × Bool :=
  match get_reader md5fn env hashFlag appid with
  | none => (false, false)
  | some r =>
      if r.rtype ≠ stateType then (false, false)
      else
        match readU32 r.data r.pos with
        | none => (false, false)
        | some (fp, p) =>
            if fp ≠ fingerprint then (false, false)
            else (true, stateRead r.data p)

/-- The rejection conditions enumerated by claim C10. -/
def fileReadReject (md5fn : List Nat → List Nat) (env : ReadEnv) (hashFlag : Bool)
    (appid : Nat) (fingerprint stateType : Nat) : Prop :=
  env.fileContents = none ∨
  env.shortRead = true ∨
  (∃ buf, env.fileContents = some buf ∧
    (md5Mismatch md5fn env.savedHash hashFlag buf = true ∨
     buf.length < 8 ∨
     fromBytes (buf.take 4) ≠ MAGIC_NUM ∨
     byteAtN buf 4 ≠ appid ∨
     byteAtN buf 6 ≠ stateType ∨
     (∃ fp p, readU32 buf 8 = some (fp, p) ∧ fp ≠ fingerprint)))

theorem get_reader_none_of_buf {md5fn : List Nat → List Nat} {env : ReadEnv}
    {hashFlag : Bool} {appid : Nat} {buf : List Nat}
    (hb : env.fileContents = some buf)
    (h : md5Mismatch md5fn env.savedHash hashFlag buf = true ∨ buf.length < 8 ∨
      fromBytes (buf.take 4) ≠ MAGIC_NUM ∨ byteAtN buf 4 ≠ appid) :
    get_reader md5fn env hashFlag appid = none := by
  unfold get_reader
  rw [hb]
  by_cases hs : env.shortRead = true
  · simp [hs]
  simp only [Bool.not_eq_true] at hs
  by_cases h1 : md5Mismatch md5fn env.savedHash hashFlag buf = true
  · simp [hs, h1]
  by_cases h2 : buf.length < 8
  · simp [hs, h1, h2]
  by_cases h3 : fromBytes (buf.take 4) = MAGIC_NUM
  case neg => simp [hs, h1, h2, h3]
  by_cases h4 : byteAtN buf 4 = appid
  case neg => simp [hs, h1, h2, h3, h4]
  exfalso
  rcases h with h | h | h | h
  · exact h1 h
  · exact h2 h
  · exact h h3
  · exact h h4

theorem get_reader_some_inv {md5fn : List Nat → List Nat} {env : ReadEnv}
    {hashFlag : Bool} {appid : Nat} {r : ReaderS}
    (h : get_reader md5fn env hashFlag appid = some r) :
    ∃ buf, env.fileContents = some buf ∧
      r = ⟨byteAtN buf 5, byteAtN buf 6, byteAtN buf 7, buf, 8⟩ := by
  unfold get_reader at h
  split at h
  · exact Option.noConfusion h
  rename_i buf heq
  refine ⟨buf, heq, ?_⟩
  repeat' split at h
  all_goals
    first
      | exact Option.noConfusion h
      | exact (Option.some.inj h).symm

/-- C10: `File::read(TaskState&)` returns `false` without invoking
`state.read` whenever `get_reader` fails (missing file, short read,
saved-MD5 mismatch, buffer shorter than 8 bytes, wrong magic number,
wrong appid byte), or the stored type byte differs from `state.type()`,
or the stored fingerprint differs from the `File`'s fingerprint; hence
`state.read` is invoked only when every one of these checks passes. -/
theorem C10_fileRead_rejects (md5fn : List Nat → List Nat) (env : ReadEnv)
    (hashFlag : Bool) (appid fingerprint stateType : Nat)
    (stateRead : List Nat → Int → Bool)
    (h : fileReadReject md5fn env hashFlag appid fingerprint stateType) :
    fileRead md5fn env hashFlag appid fingerprint stateType stateRead = (false, false) := by
  rcases h with h | h | ⟨buf, hb, hc⟩
  · simp [fileRead, get_reader, h]
  · have hnone : get_reader md5fn env hashFlag appid = none := by
      unfold get_reader
      cases henv : env.fileContents <;> simp [h]
    simp [fileRead, hnone]
  · rcases hc with h1 | h2 | h3 | h4 | h5 | h6
    · simp [fileRead, get_reader_none_of_buf hb (Or.inl h1)]
    · simp [fileRead, get_reader_none_of_buf hb (Or.inr (Or.inl h2))]
    · simp [fileRead, get_reader_none_of_buf hb (Or.inr (Or.inr (Or.inl h3)))]
    · simp [fileRead, get_reader_none_of_buf hb (Or.inr (Or.inr (Or.inr h4)))]
    · cases hr : get_reader md5fn env hashFlag appid with
      | none => simp [fileRead, hr]
      | some r =>
          obtain ⟨buf2, hb2, hrr⟩ := get_reader_some_inv hr
          rw [hb] at hb2
          injection hb2 with hbuf
          subst hbuf
          simp [fileRead, hr, hrr, h5]
    · cases hr : get_reader md5fn env hashFlag appid with
      | none => simp [fileRead, hr]
      | some r =>
          obtain ⟨buf2, hb2, hrr⟩ := get_reader_some_inv hr
          rw [hb] at hb2
          injection hb2 with hbuf
          subst hbuf
          obtain ⟨fp, p, hread, hne⟩ := h6
          by_cases ht : byteAtN buf 6 ≠ stateType
          · simp [fileRead, hr, hrr, ht]
          · simp [fileRead, hr, hrr, ht, hread, hne]

/-- Witness for C10: a missing state file makes `File::read` return
`false` without calling `state.read`. -/
theorem C10_fileRead_rejects_witness :
    fileRead (fun _ => []) ⟨none, false, none⟩ true 1 2 3 (fun _ _ => true) =
      (false, false) :=
  C10_fileRead_rejects (fun _ => []) ⟨none, false, none⟩ true 1 2 3
    (fun _ _ => true) (Or.inl rfl)

/-! ## Polymult (`src/src/gwnum/polymult.h`)

Only the header is part of the repository: it fixes the interfaces, the
option bits, the `pmhandle` fields (including the 40-entry
`cached_twiddles` array) and the accessor macros.  The implementation
file is absent, so the operational behaviour below is modelled from the
specification.  Coefficients are big integers, so a polynomial is a list
of integers, lowest degree first. -/

/-- A stored coefficient vector, lowest degree first. -/
abbrev Poly := List Int

/-- Modelled from the spec (§4.D, §8): the reference O(n·m) schoolbook
product, `out[k] = Σ_{i+j=k} in1[i] * in2[j]`, of length `n1 + n2 − 1`. -/
def schoolbook (a b : Poly) : Poly :=
  (List.range (a.length + b.length - 1)).map
    (fun k : Nat => ∑ i ∈ Finset.range (k + 1), a.getD i 0 * b.getD (k - i) 0)

/-- Modelled from the spec (§6, §4.F): expansion of one stored input
vector.  Negation flips every stored coefficient (the implied monic 1 is
never negated); an RLP stored as `[c0..c(n−1)]` expands to the symmetric
full vector `[c(n−1)..c1] ++ [c0..c(n−1)]`; a monic input gains the
implied leading 1 (at both ends for a monic RLP). -/
def expandInput (v : Poly) (monic rlp neg : Bool) : Poly :=
  let w1 := if neg then v.map (fun c => -c) else v
  let w2 := if rlp then (w1.drop 1).reverse ++ w1 else w1
  if monic then (if rlp then 1 :: (w2 ++ [1]) else w2 ++ [1]) else w2

/-- The polymult option bitmap fields relevant to the result value
(`POLYMULT_INVEC1_MONIC` … `POLYMULT_MULMID`, polymult.h lines 100–114).
The transform-domain flags (`NO_UNFFT`, `STARTNEXTFFT`, `NEXTFFT`)
control representation, not the mathematical value, and the FMA flags
are carried by `FmaMode` below. -/
structure PolyOpts where
  monic1 : Bool
  monic2 : Bool
  rlp1 : Bool
  rlp2 : Bool
  neg1 : Bool
  neg2 : Bool
  circular : Bool
  mulhi : Bool
  mullo : Bool
  mulmid : Bool
deriving DecidableEq

/-- No option bits set. -/
def optsNone : PolyOpts := ⟨false, false, false, false, false, false, false, false, false, false⟩

/-- Only monic/RLP/negate input bits. -/
def plainOpts (m1 m2 r1 r2 g1 g2 : Bool) : PolyOpts :=
  ⟨m1, m2, r1, r2, g1, g2, false, false, false, false⟩

/-- Only `POLYMULT_CIRCULAR`. -/
def optsCircular : PolyOpts := ⟨false, false, false, false, false, false, true, false, false, false⟩

/-- `POLYMULT_INVEC1_MONIC | POLYMULT_INVEC2_MONIC`. -/
def optsMonicBoth : PolyOpts := ⟨true, true, false, false, false, false, false, false, false, false⟩

/-- Modelled from the spec (§4.F, §8): reduction modulo `(X^S − 1)` —
every full-product coefficient of degree `d` wraps onto degree
`d mod S`. -/
def wrapCircular (full : Poly) (S : Nat) : Poly :=
  (List.range S).map
    (fun r : Nat => ∑ j ∈ Finset.range full.length, if j % S = r then full.getD j 0 else 0)

/-- Modelled from the spec (§4, §6, §8) and the polymult.h interface
comments: the plain `polymult` entry point.  The combinations the plain
interface rejects — `CIRCULAR` together with `MULHI` or `MULLO`
(polymult.h lines 66–68, 110–113), or `MULMID` at all (line 114) — fail
the call before any output is written (`none`).  Otherwise the inputs
are expanded per the monic/RLP/negate bits, multiplied by the schoolbook
reference, and the result window of `outvec_size` coefficients is
produced (wrapped when `CIRCULAR`, the top coefficients when `MULHI`,
the bottom ones otherwise — for a monic product the implied leading 1
falls outside the window and is omitted). -/
def polymult (a : Poly) (b : Poly) (outvec_size : Nat) (o : PolyOpts) : Option Poly :=
  if o.mulmid ∨ (o.circular ∧ (o.mulhi ∨ o.mullo)) then none
  else
    let ea := expandInput a o.monic1 o.rlp1 o.neg1
    let eb := expandInput b o.monic2 o.rlp2 o.neg2
    let full := schoolbook ea eb
    if o.circular then some (wrapCircular full outvec_size)
    else if o.mulhi then some (full.drop (full.length - outvec_size))
    else some (full.take outvec_size)

/-- The FMA option bits of `polymult_fma` (`POLYMULT_FMADD`,
`POLYMULT_FMSUB`, `POLYMULT_FNMADD`). -/
inductive FmaMode where
  | noFma
  | fmadd
  | fmsub
  | fnmadd
deriving DecidableEq

/-- Modelled from the spec (§8): the per-coefficient FMA combination:
`a·b + f`, `a·b − f`, or `f − a·b`. -/
def applyFma : FmaMode → Int → Int → Int
  | .noFma, x, _ => x
  | .fmadd, x, f => x + f
  | .fmsub, x, f => x - f
  | .fnmadd, x, f => f - x

/-- Modelled from the spec: `polymult_fma` — the same entry as `polymult`
(including its option rejections) with the `fmavec` combined pointwise
into the result. -/
def polymult_fma (a : Poly) (b : Poly) (outvec_size : Nat) (fmavec : Poly)
    (mode : FmaMode) (o : PolyOpts) : Option Poly :=
  match polymult a b outvec_size o with
  | none => none
  | some r => some ((List.range r.length).map
      (fun k : Nat => applyFma mode (r.getD k 0) (fmavec.getD k 0)))

theorem length_schoolbook (a b : Poly) :
    (schoolbook a b).length = a.length + b.length - 1 := by
  simp [schoolbook]

theorem getD_schoolbook (a b : Poly) (k : Nat) (hk : k < a.length + b.length - 1) :
    (schoolbook a b).getD k 0 =
      ∑ i ∈ Finset.range (k + 1), a.getD i 0 * b.getD (k - i) 0 := by
  unfold schoolbook
  rw [List.getD_eq_getElem?_getD, List.getElem?_map, List.getElem?_range hk]
  rfl

/-- The product of two monic polynomials is monic: the coefficient the
monic output omits is 1. -/
theorem schoolbook_monic_leading (a b : Poly) :
    (schoolbook (a ++ [1]) (b ++ [1])).getD (a.length + b.length) 0 = 1 := by
  have hk : a.length + b.length < (a ++ [1]).length + (b ++ [1]).length - 1 := by
    simp [List.length_append]
  rw [getD_schoolbook _ _ _ hk]
  rw [Finset.sum_eq_single a.length]
  · have h1 : (a ++ [1]).getD a.length 0 = 1 := by
      rw [List.getD_append_right _ _ _ _ (le_refl a.length)]
      simp
    have h2 : (b ++ [1]).getD (a.length + b.length - a.length) 0 = 1 := by
      rw [Nat.add_sub_cancel_left, List.getD_append_right _ _ _ _ (le_refl b.length)]
      simp
    rw [h1, h2, one_mul]
  · intro i hi hne
    rcases Nat.lt_or_ge i a.length with h | h
    · have hb0 : (b ++ [1]).getD (a.length + b.length - i) 0 = 0 := by
        apply List.getD_eq_default
        simp only [List.length_append, List.length_cons, List.length_nil]
        omega
      rw [hb0, mul_zero]
    · have ha0 : (a ++ [1]).getD i 0 = 0 := by
        apply List.getD_eq_default
        simp only [List.length_append, List.length_cons, List.length_nil]
        omega
      rw [ha0, zero_mul]
  · intro habs
    exact absurd (Finset.mem_range.mpr (by omega)) habs

/-- C1: for every pair of inputs and every monic/RLP/negation
combination of the plain interface, `polymult`'s output window is the
coefficient-by-coefficient schoolbook convolution of the expanded
inputs; in particular `[1,2,3] × [4,5,6]` with no options gives
`[4,13,28,27,18]`. -/
theorem C1_polymult_schoolbook :
    (∀ (a b : Poly) (S : Nat) (m1 m2 r1 r2 g1 g2 : Bool),
      polymult a b S (plainOpts m1 m2 r1 r2 g1 g2) =
        some ((schoolbook (expandInput a m1 r1 g1) (expandInput b m2 r2 g2)).take S)) ∧
    polymult [1, 2, 3] [4, 5, 6] 5 optsNone = some [4, 13, 28, 27, 18] := by
  constructor
  · intro a b S m1 m2 r1 r2 g1 g2
    simp [polymult, plainOpts]
  · decide

/-- C2 counterexample: the claimed circular result `[4,6,4,6]` for
`[1,2,3,4] × [1,0,0,0,1]` with `S = 4` is not what wrapping the
schoolbook product modulo `(X^4 − 1)` produces (the full product is
`[1,2,3,4,1,2,3,4]`, which wraps to `[2,4,6,8]`). -/
theorem C2_circular_counterexample :
    polymult [1, 2, 3, 4] [1, 0, 0, 0, 1] 4 optsCircular ≠ some [4, 6, 4, 6] := by
  decide

/-- C2 (amended): `polymult` with `POLYMULT_CIRCULAR` returns the
schoolbook product reduced modulo `(X^S − 1)` — every full-product
coefficient of degree `d` wraps onto degree `d mod S`; in particular
`[1,2,3,4] × [1,0,0,0,1]` with `S = 4` yields `[2,4,6,8]`. -/
theorem C2_circular_wrap :
    (∀ (a b : Poly) (S : Nat),
      polymult a b S optsCircular = some (wrapCircular (schoolbook a b) S)) ∧
    polymult [1, 2, 3, 4] [1, 0, 0, 0, 1] 4 optsCircular = some [2, 4, 6, 8] := by
  constructor
  · intro a b S
    simp [polymult, optsCircular, expandInput]
  · decide

/-- C3 counterexample: the claimed monic product `[3,10,6]` for
`[1,2]` monic × `[3,4]` monic has size 3, not `n1 + n2 = 4`; the monic
product `(1+2x+x²)(3+4x+x²)` with its leading 1 omitted is
`[3,10,12,6]`. -/
theorem C3_monic_counterexample :
    polymult [1, 2] [3, 4] 4 optsMonicBoth ≠ some [3, 10, 6] := by
  decide

/-- C3 (amended): when both inputs are monic, the output is the monic
product of the expanded inputs with its leading coefficient — which is
1 — omitted, of size `invec1_size + invec2_size`; in particular
`[1,2]` monic × `[3,4]` monic yields `[3,10,12,6]`. -/
theorem C3_monic_product :
    (∀ a b : Poly,
      polymult a b (a.length + b.length) optsMonicBoth =
        some ((schoolbook (a ++ [1]) (b ++ [1])).take (a.length + b.length)) ∧
      ((schoolbook (a ++ [1]) (b ++ [1])).take (a.length + b.length)).length =
        a.length + b.length ∧
      (schoolbook (a ++ [1]) (b ++ [1])).getD (a.length + b.length) 0 = 1) ∧
    polymult [1, 2] [3, 4] 4 optsMonicBoth = some [3, 10, 12, 6] := by
  constructor
  · intro a b
    refine ⟨?_, ?_, schoolbook_monic_leading a b⟩
    · simp [polymult, optsMonicBoth, expandInput]
    · rw [List.length_take, length_schoolbook]
      simp [List.length_append]
  · decide

/-! ## Twiddle cache (polymult.h lines 218–226; behaviour modelled) -/

/-- The twiddle-cache portion of `pmhandle`: the sizes of the cached
tables (`cached_twiddles` has room for 40 entries and
`cached_twiddles_count` is the list length) and whether cache additions
are currently enabled (`cached_twiddles_enabled` and not
`twiddle_cache_additions_disabled`). -/
structure TwiddleCacheState where
  cachedSizes : List Nat
  additionsEnabled : Bool
deriving DecidableEq

/-- Modelled from the spec (§4.A): `ensure(size)` — cache lookup is an
exact match on size; on miss a new table is built and inserted only when
additions are enabled and the cache has fewer than 40 entries, otherwise
the new table is used without being cached.  The second component is the
table size the caller uses. -/
def ensureTwiddles (s : TwiddleCacheState) (size : Nat) : TwiddleCacheState × Nat :=
  if size ∈ s.cachedSizes then (s, size)
  else if s.additionsEnabled ∧ s.cachedSizes.length < 40 then
    (⟨s.cachedSizes ++ [size], s.additionsEnabled⟩, size)
  else (s, size)

/-- C5: the twiddle cache never holds more than 40 entries — every
`ensure(size)` preserves `cached_twiddles_count ≤ 40`, inserting a new
table only when additions are enabled and the count is below 40, and
leaving the cache untouched otherwise. -/
theorem C5_twiddle_cache_bound (s : TwiddleCacheState) (size : Nat)
    (h : s.cachedSizes.length ≤ 40) :
    (ensureTwiddles s size).1.cachedSizes.length ≤ 40 ∧
    (¬ (s.additionsEnabled = true ∧ s.cachedSizes.length < 40) →
      (ensureTwiddles s size).1 = s) := by
  have hcase : ensureTwiddles s size = (s, size) ∨
      (ensureTwiddles s size = (⟨s.cachedSizes ++ [size], s.additionsEnabled⟩, size) ∧
        s.additionsEnabled = true ∧ s.cachedSizes.length < 40) := by
    unfold ensureTwiddles
    by_cases h1 : size ∈ s.cachedSizes
    · exact Or.inl (by rw [if_pos h1])
    by_cases h2 : s.additionsEnabled = true ∧ s.cachedSizes.length < 40
    · exact Or.inr ⟨by rw [if_neg h1, if_pos h2], h2⟩
    · exact Or.inl (by rw [if_neg h1, if_neg h2])
  rcases hcase with heq | ⟨heq, h2⟩
  · rw [heq]
    exact ⟨h, fun _ => rfl⟩
  · rw [heq]
    constructor
    · simp only [List.length_append, List.length_cons, List.length_nil]
      omega
    · intro hnot
      exact absurd h2 hnot

/-- Witness for C5: inserting into an empty cache stays within the
40-entry bound. -/
theorem C5_twiddle_cache_bound_witness :
    (ensureTwiddles ⟨[], true⟩ 8).1.cachedSizes.length ≤ 40 ∧
    (¬ ((true : Bool) = true ∧ ([] : List Nat).length < 40) →
      (ensureTwiddles ⟨[], true⟩ 8).1 = ⟨[], true⟩) :=
  C5_twiddle_cache_bound ⟨[], true⟩ 8 (by decide)

/-- `POLYMULT_MULMID` set (with nothing else). -/
def optsMulmid : PolyOpts := ⟨false, false, false, false, false, false, false, false, false, true⟩

/-- C6: any plain `polymult` or `polymult_fma` call whose options
combine `CIRCULAR` with `MULHI` or `MULLO`, or set `MULMID`, fails
before writing any output (these combinations are accepted only through
`polymult_several`/`polymult2`). -/
theorem C6_plain_interface_rejects (a b : Poly) (S : Nat) (fmavec : Poly)
    (mode : FmaMode) (o : PolyOpts)
    (h : o.mulmid = true ∨ (o.circular = true ∧ (o.mulhi = true ∨ o.mullo = true))) :
    polymult a b S o = none ∧ polymult_fma a b S fmavec mode o = none := by
  have h1 : polymult a b S o = none := by
    unfold polymult
    rw [if_pos h]
  exact ⟨h1, by simp [polymult_fma, h1]⟩

/-- Witness for C6: `MULMID` through the plain entry points is
rejected. -/
theorem C6_plain_interface_rejects_witness :
    polymult [1] [1] 1 optsMulmid = none ∧
    polymult_fma [1] [1] 1 [1] FmaMode.noFma optsMulmid = none :=
  C6_plain_interface_rejects [1] [1] 1 [1] FmaMode.noFma optsMulmid (Or.inl rfl)

/-! ## Preprocessed-poly recognition (polymult.h lines 134, 251–260) -/

/-- The fields of `preprocessed_poly_header` that sit
`sizeof(gwarray_header)` bytes before a preprocessed poly's base
pointer. -/
structure PPHeader where
  self_ptr : Nat
  num_lines : Nat
  element_size : Nat
  padded_element_size : Nat
  options : Nat
  fft_size : Nat
  monic_ones_included : Bool
deriving DecidableEq

/-- Memory abstraction for recognition: `m p` interprets the bytes
located exactly `sizeof(gwarray_header)` before pointer `p` as a
`preprocessed_poly_header` (any bytes interpret as some header, garbage
included); pointer value 0 is NULL. -/
def PMem := Nat → PPHeader

/-- The `is_preprocessed_poly` macro (polymult.h line 134):
`(p) != NULL && header(p)->self_ptr == (p)`. -/
def is_preprocessed_poly (m : PMem) (p : Nat) : Bool :=
  decide (p ≠ 0) && decide ((m p).self_ptr = p)

/-- Modelled from the spec (§4.H): `polymult_preprocess` returns a newly
allocated array at a nonzero address `p`, writing its header — with the
self-pointer sentinel set to `p` — immediately before the returned
pointer; `hdr` carries the remaining header fields chosen during
preprocessing. -/
def polymult_preprocess (m : PMem) (p : Nat) (hdr : PPHeader) : PMem × Nat :=
  (fun q => if q = p then
      ⟨p, hdr.num_lines, hdr.element_size, hdr.padded_element_size, hdr.options,
        hdr.fft_size, hdr.monic_ones_included⟩
    else m q, p)

/-- C7: `is_preprocessed_poly p` holds exactly when `p` is non-NULL and
the header before `p` has `self_ptr = p`, and every array returned by
`polymult_preprocess` satisfies the recognition predicate. -/
theorem C7_preprocessed_recognition (m : PMem) (p : Nat) (hdr : PPHeader) (hp : p ≠ 0) :
    is_preprocessed_poly (polymult_preprocess m p hdr).1 (polymult_preprocess m p hdr).2 =
      true ∧
    (∀ q : Nat, is_preprocessed_poly m q = true ↔ q ≠ 0 ∧ (m q).self_ptr = q) := by
  constructor
  · simp [is_preprocessed_poly, polymult_preprocess, hp]
  · intro q
    simp [is_preprocessed_poly]

/-- Witness for C7: preprocessing at address 1 over arbitrary memory
yields a recognized preprocessed poly. -/
theorem C7_preprocessed_recognition_witness :
    is_preprocessed_poly
      (polymult_preprocess (fun _ => ⟨0, 0, 0, 0, 0, 0, false⟩) 1
        ⟨0, 0, 0, 0, 0, 0, false⟩).1
      (polymult_preprocess (fun _ => ⟨0, 0, 0, 0, 0, 0, false⟩) 1
        ⟨0, 0, 0, 0, 0, 0, false⟩).2 = true ∧
    (∀ q : Nat, is_preprocessed_poly (fun _ => ⟨0, 0, 0, 0, 0, 0, false⟩) q = true ↔
      q ≠ 0 ∧ ((fun (_ : Nat) => (⟨0, 0, 0, 0, 0, 0, false⟩ : PPHeader)) q).self_ptr = q) :=
  C7_preprocessed_recognition (fun _ => ⟨0, 0, 0, 0, 0, 0, false⟩) 1
    ⟨0, 0, 0, 0, 0, 0, false⟩ (by decide)

end Arith
